import Mathlib

/-
  Verification of the Architect memory benchmark (`src/bench.c`).

  Shallow embedding conventions:
  * `unsigned long` is modeled as `ℕ` with an explicit `% U64` wherever the
    64-bit wrap-around can matter;
  * `long` / `int` quantities that stay small are modeled as `ℤ` or `ℕ`;
  * `double` is modeled as `ℚ` (exact real-number semantics of the
    floating-point expressions; all concrete values appearing in the claims
    are small enough that this is the intended reading of the spec);
  * the constants `GB`, `MB`, `TICK_INTERVAL_MS` and `MEM_OP_MAX_MB` come
    from `bench.h`, which is not part of the sources; every definition that
    needs them takes them as an explicit parameter, so no concrete value is
    assumed.
-/

namespace Bench

/-- 2^64, the modulus of C `unsigned long` arithmetic on the target. -/
def U64 : ℕ := 2 ^ 64

/-- Unsigned 64-bit subtraction `a - b` as it happens in C when both
operands are `unsigned long`: the result is `(a - b) mod 2^64`. -/
def usub (a b : ℕ) : ℕ := (a + U64 - b % U64) % U64

/-- `percentile` from `bench.c` lines 203–210:

    unsigned long r = (k * (n - 1)) / 100;
    unsigned long rmod = (k * (n - 1)) % 100;
    if (rmod == 0) return data[r];
    return data[r] + (rmod / 100.0) * (data[r + 1] - data[r]);

`n - 1`, the product `k * (n - 1)` and the difference `data[r+1] - data[r]`
are `unsigned long` arithmetic (wrap-around modeled by `% U64` and `usub`);
the final expression is evaluated in `double`, modeled as `ℚ`.  Array reads
are modeled with `getD` (out-of-range reads would be undefined behaviour in
C; the bounds theorems show all reads are in range). -/
def percentile (data : List ℕ) (n k : ℕ) : ℚ :=
  let t := k * ((n + U64 - 1) % U64) % U64
  let r := t / 100
  let rmod := t % 100
  if rmod = 0 then (data.getD r 0 : ℚ)
  else (data.getD r 0 : ℚ) + ((rmod : ℚ) / 100) * (usub (data.getD (r + 1) 0) (data.getD r 0) : ℚ)

/-- The indices of `data` that `percentile` reads: `r` always, and `r + 1`
exactly when the interpolation remainder is nonzero. -/
def percentileReads (n k : ℕ) : List ℕ :=
  let t := k * ((n + U64 - 1) % U64) % U64
  let r := t / 100
  if t % 100 = 0 then [r] else [r, r + 1]

/-- Modelled from the spec (§4.5): the R-7 linear-interpolation percentile,
written with exact rank/remainder arithmetic and true (signed, real-number)
subtraction, to be compared against the source's `percentile`:
`r = floor(k*(n-1)/100)`, `m = (k*(n-1)) mod 100`; the result is `data[r]`
when `m = 0` and `data[r] + (m/100)*(data[r+1] - data[r])` otherwise. -/
def percentileR7 (data : List ℕ) (n k : ℕ) : ℚ :=
  let r := k * (n - 1) / 100
  let m := k * (n - 1) % 100
  if m = 0 then (data.getD r 0 : ℚ)
  else (data.getD r 0 : ℚ) + ((m : ℚ) / 100) * ((data.getD (r + 1) 0 : ℚ) - (data.getD r 0 : ℚ))

/-- `struct stats` from `bench.c` lines 57–65.  The `stdev` field of the
source is `sqrt(var / (size - 1))`; to stay inside `ℚ` we record its square
`stdevSq = var / (size - 1)` (the two determine each other since the
accumulated `var` is a sum of products of matching signs; the degenerate
branches of `compute_stats` store `stdev = 0`, i.e. `stdevSq = 0`). -/
structure Stats where
  min : ℕ
  max : ℕ
  avg : ℚ
  stdevSq : ℚ
  p99 : ℚ
  p95 : ℚ
  p90 : ℚ
  deriving Repr, DecidableEq

/-- One iteration of the loop in `compute_stats` lines 241–245, carrying
`(prev_avg, var, i)` and consuming `data[i]`:

    avg = prev_avg + (data[i] - prev_avg) / i;
    var += (data[i] - prev_avg) * (data[i] - avg);
    prev_avg = avg;
    i++;

(the loop variable `i` is the array index of the element being consumed). -/
def welfordStep (acc : ℚ × ℚ × ℕ) (x : ℕ) : ℚ × ℚ × ℕ :=
  let avg := acc.1 + ((x : ℚ) - acc.1) / (acc.2.2 : ℚ)
  (avg, acc.2.1 + ((x : ℚ) - acc.1) * ((x : ℚ) - avg), acc.2.2 + 1)

/-- `compute_stats` from `bench.c` lines 214–254, as a function from the
first `size` elements of the data array (given as a list) to the filled-in
`stats` record.  The `size = 0` and `size = 1` branches are the two `case`s
of the source `switch`; the default branch runs the Welford-style loop
starting from `avg = prev_avg = data[0]`, `var = 0`, `i = 1`. -/
def compute_stats (data : List ℕ) : Stats :=
  match data with
  | [] => { min := 0, max := 0, avg := 0, stdevSq := 0, p99 := 0, p95 := 0, p90 := 0 }
  | [x] => { min := x, max := x, avg := (x : ℚ), stdevSq := 0,
             p99 := (x : ℚ), p95 := (x : ℚ), p90 := (x : ℚ) }
  | x :: y :: rest =>
    let n := (x :: y :: rest).length
    let res := (y :: rest).foldl welfordStep ((x : ℚ), 0, 1)
    { min := x,
      max := (x :: y :: rest).getD (n - 1) 0,
      avg := res.1,
      stdevSq := res.2.1 / ((n - 1 : ℕ) : ℚ),
      p99 := percentile (x :: y :: rest) n 99,
      p95 := percentile (x :: y :: rest) n 95,
      p90 := percentile (x :: y :: rest) n 90 }

/-! ### Timing of one access (`access_mem`, lines 149–167) -/

/-- `struct timespec` as returned by `clock_gettime(CLOCK_MONOTONIC, ·)`. -/
structure Timespec where
  tv_sec : ℤ
  tv_nsec : ℤ
  deriving Repr, DecidableEq

/-- A well-formed `timespec`: the nanosecond field is in `[0, 10^9)`. -/
def Timespec.valid (t : Timespec) : Prop :=
  0 ≤ t.tv_nsec ∧ t.tv_nsec < 1000000000

instance (t : Timespec) : Decidable t.valid := by unfold Timespec.valid; infer_instance

/-- The instant a `timespec` denotes, in nanoseconds. -/
def Timespec.totalNs (t : Timespec) : ℤ :=
  t.tv_sec * 1000000000 + t.tv_nsec

/-- `a` is no later than `b` (lexicographic order on `(tv_sec, tv_nsec)`);
`CLOCK_MONOTONIC` guarantees `before ≤ after` for successive readings. -/
def Timespec.le (a b : Timespec) : Prop :=
  a.tv_sec < b.tv_sec ∨ (a.tv_sec = b.tv_sec ∧ a.tv_nsec ≤ b.tv_nsec)

instance (a b : Timespec) : Decidable (a.le b) := by unfold Timespec.le; infer_instance

/-- The elapsed-time computation of `access_mem` lines 164–166:

    long secs_diff = after.tv_sec - before.tv_sec;
    long nsecs_diff = after.tv_nsec - before.tv_nsec;
    long diff = secs_diff * 1000000000 + nsecs_diff;
-/
def diffNs (before after : Timespec) : ℤ :=
  (after.tv_sec - before.tv_sec) * 1000000000 + (after.tv_nsec - before.tv_nsec)

/-- The value actually placed in the `unsigned long` array `RESULTS`
(line 171): the C conversion of `long diff` to `unsigned long` is reduction
mod 2^64. -/
def recordedLatency (before after : Timespec) : ℕ :=
  ((diffNs before after) % (U64 : ℤ)).toNat

/-- `long rate = (size * 1024 / diff);` (line 167).  Both operands are
converted to `unsigned long`, so the quotient is the unsigned one; division
by zero is undefined behaviour in C, modeled as `none`. -/
def rateOf (size : ℕ) (diff : ℤ) : Option ℕ :=
  let d := (diff % (U64 : ℤ)).toNat
  if d = 0 then none else some (size * 1024 % U64 / d)

/-! ### The result log (globals lines 36–40, append lines 169–176,
allocation lines 283–286) -/

/-- The global result storage: the three parallel arrays `SAMPLES`,
`RESULTS`, `RATES` (modeled as total functions from index to stored value),
their common capacity `RESULTS_SIZE`, and the write cursor `RESULTS_I`. -/
structure ResultLog where
  samples : ℕ → ℕ
  results : ℕ → ℕ
  rates : ℕ → ℕ
  results_size : ℕ
  results_i : ℕ

/-- The append step of `access_mem` lines 169–176:

    if (RESULTS_I < RESULTS_SIZE) {
        SAMPLES[RESULTS_I] = size; RESULTS[RESULTS_I] = diff;
        RATES[RESULTS_I] = rate; RESULTS_I++;
    } else { printf("WARN: Result storage limit reached.\n"); }

Returns the updated log and `true` when stored, `false` when the sample was
dropped with the warning. -/
def appendSample (log : ResultLog) (sample latency rate : ℕ) : ResultLog × Bool :=
  if log.results_i < log.results_size then
    ({ log with
        samples := fun j => if j = log.results_i then sample else log.samples j,
        results := fun j => if j = log.results_i then latency else log.results j,
        rates := fun j => if j = log.results_i then rate else log.rates j,
        results_i := log.results_i + 1 }, true)
  else (log, false)

/-- A whole run's sequence of append attempts; returns the final log and the
number of dropped (warned-about) samples. -/
def appendAll (log : ResultLog) : List (ℕ × ℕ × ℕ) → ResultLog × ℕ
  | [] => (log, 0)
  | s :: rest =>
    let step := appendSample log s.1 s.2.1 s.2.2
    let res := appendAll step.1 rest
    (res.1, (if step.2 then 0 else 1) + res.2)

/-- The log as `benchmark` sets it up (lines 283–286): capacity
`opts.duration * 1000 / TICK_INTERVAL_MS`, arrays `calloc`ed to zero, cursor
at the initial value `0` of the global `RESULTS_I` (line 40). -/
def initLog (duration tickIntervalMs : ℕ) : ResultLog :=
  { samples := fun _ => 0, results := fun _ => 0, rates := fun _ => 0,
    results_size := duration * 1000 / tickIntervalMs, results_i := 0 }

/-! ### Size/offset draw of one access (`access_mem`, lines 135–143) -/

/-- `unsigned long size = rand() % (MEM_OP_MAX_MB * MB);` (line 135), with
`r1` the value returned by `rand()` and `maxAccessBytes = MEM_OP_MAX_MB * MB`
(the constants live in the absent `bench.h`, so the product is kept as a
parameter). -/
def draw_size (r1 maxAccessBytes : ℕ) : ℕ := r1 % maxAccessBytes

/-- Lines 136–137, with `r2`, `r3` the two successive `rand()` values:

    unsigned long offset = rand();
    offset = (offset << 12 | rand()) % (DATA_SIZE - 1);

All arithmetic is `unsigned long`: the shift is `* 2^12 mod 2^64`, `|` is
bitwise or, and `DATA_SIZE - 1` wraps when `DATA_SIZE = 0`. -/
def draw_offset (r2 r3 dataSize : ℕ) : ℕ :=
  Nat.lor (r2 * 4096 % U64) r3 % U64 % ((dataSize + U64 - 1) % U64)

/-- The bounds clamp, lines 141–143:

    if (offset + size > DATA_SIZE) { size = DATA_SIZE - offset; }

(`offset + size` is `unsigned long` addition, hence the `% U64`). -/
def clamp_size (offset size dataSize : ℕ) : ℕ :=
  if (offset + size) % U64 > dataSize then dataSize - offset else size

/-- The full per-tick draw: `(clamped size, offset)`; the offset used for the
copy is exactly the drawn one — the clamp touches only the size. -/
def access_mem_draw (r1 r2 r3 maxAccessBytes dataSize : ℕ) : ℕ × ℕ :=
  (clamp_size (draw_offset r2 r3 dataSize) (draw_size r1 maxAccessBytes) dataSize,
   draw_offset r2 r3 dataSize)

/-! ### End-of-run reduction and exit status (`benchmark`, lines 256–440) -/

def EXIT_SUCCESS : ℕ := 0

def EXIT_FAILURE : ℕ := 1

/-- The three per-channel statistics reports of lines 397–427. -/
structure RunReport where
  samples_stats : Stats
  results_stats : Stats
  rates_stats : Stats
  deriving DecidableEq

/-- Lines 387–427: after the worker is joined, if `RESULTS_I == 0` the sort
and statistics steps are skipped (`goto free`) and no report is produced;
otherwise each channel (the first `RESULTS_I` entries, given here as lists)
is sorted ascending (`qsort` with `cmpulong`) and reduced by
`compute_stats`. -/
def benchmark_reduce (results_i : ℕ) (samples results rates : List ℕ) : Option RunReport :=
  if results_i = 0 then none
  else some
    { samples_stats := compute_stats (List.insertionSort (· ≤ ·) samples),
      results_stats := compute_stats (List.insertionSort (· ≤ ·) results),
      rates_stats := compute_stats (List.insertionSort (· ≤ ·) rates) }

/-- The exit status and report of one `benchmark` run, as a function of
whether `load_mem` succeeded (lines 297–301: failure sets
`ret = EXIT_FAILURE` and jumps to `free`) and of the measurement outcome.
`ret` starts as `EXIT_SUCCESS` (line 258) and is never modified after the
measurement phase begins, so the zero-sample path exits with
`EXIT_SUCCESS` (lines 388–390 and 429–439: `goto free; ... exit(ret)`). -/
def benchmark_outcome (loadOk : Bool) (results_i : ℕ)
    (samples results rates : List ℕ) : ℕ × Option RunReport :=
  if loadOk = false then (EXIT_FAILURE, none)
  else (EXIT_SUCCESS, benchmark_reduce results_i samples results rates)

/-! ### The tick/worker engine (`benchmark` lines 373–383, `access_mem`
lines 131–178), as an interleaving transition system.

The worker thread either sits in `pthread_cond_wait(&TICK, &TICK_LOCK)`
(line 133, `TICK_LOCK` released while parked) or — once woken by a tick —
holds `TICK_LOCK` for the entire draw/copy/time/append sequence up to the
`pthread_mutex_unlock` on line 177.  The coordinator's
`pthread_mutex_trylock(&TICK_LOCK)` (line 374) therefore succeeds exactly
when the worker is parked; on success it signals the condition (waking the
single waiter) and unlocks; on failure it only prints the
"Lock is busy, missing tick" warning (line 379) and moves on — nothing is
queued anywhere. -/

/-- Phase of the single worker thread. -/
inductive WorkerPhase
  | waiting
  | accessing
  deriving Repr, DecidableEq

/-- Engine configuration: worker phase plus event counters. -/
structure EngineState where
  worker : WorkerPhase
  ticksIssued : ℕ
  ticksDropped : ℕ
  accessesDone : ℕ
  deriving Repr, DecidableEq

/-- Number of timed memory accesses in flight. -/
def inFlight (s : EngineState) : ℕ :=
  match s.worker with
  | .waiting => 0
  | .accessing => 1

/-- One interleaving step of coordinator and worker:
* `tick` — the trylock succeeds (worker parked), the signal wakes the worker,
  which begins its access section holding `TICK_LOCK`;
* `tickBusy` — the trylock fails (worker mid-access); only the drop counter
  moves, the worker and the log are untouched;
* `finishAccess` — the worker completes its access+append and parks again. -/
inductive EngineStep : EngineState → EngineState → Prop
  | tick (s : EngineState) (h : s.worker = WorkerPhase.waiting) :
      EngineStep s { s with worker := .accessing, ticksIssued := s.ticksIssued + 1 }
  | tickBusy (s : EngineState) (h : s.worker = WorkerPhase.accessing) :
      EngineStep s { s with ticksDropped := s.ticksDropped + 1 }
  | finishAccess (s : EngineState) (h : s.worker = WorkerPhase.accessing) :
      EngineStep s { s with worker := .waiting, accessesDone := s.accessesDone + 1 }

/-- The state after the readiness handshake (lines 126–129 / 369–371):
worker parked, no events yet. -/
def initEngine : EngineState :=
  { worker := .waiting, ticksIssued := 0, ticksDropped := 0, accessesDone := 0 }

/-- States the engine can reach in any interleaving. -/
def EngineReachable (s : EngineState) : Prop :=
  Relation.ReflTransGen EngineStep initEngine s

/-! ### Claim theorems -/

/-- C1: the claim asserts that `compute_stats` on `[2,4,4,4,5,5,7,9]`
produces mean exactly `5.0` and sample stdev `≈ 2.138` via Welford's update.
The code instead divides the mean update by the array index `i` (the number
of elements already consumed) rather than by the element count `i + 1`, so
it computes the statistics of `data[1..n-1]` only: the average comes out as
`38/7 ≈ 5.43 ≠ 5` and `var/(n-1)` as `152/49 ≈ 3.10 < 4`, i.e.
`stdev < 2 ≠ 2.138`.  This theorem evaluates the embedded code at the
claimed input, exhibiting the divergence. -/
theorem C1_welford_divergence :
    (compute_stats [2, 4, 4, 4, 5, 5, 7, 9]).avg = 38 / 7 ∧
    (compute_stats [2, 4, 4, 4, 5, 5, 7, 9]).stdevSq = 152 / 49 ∧
    (38 / 7 : ℚ) ≠ 5 ∧ (152 / 49 : ℚ) < 4 := by
  refine ⟨?_, ?_, by norm_num, by norm_num⟩ <;>
    norm_num [compute_stats, welfordStep, List.foldl]

/-- C3: for any two valid monotonic clock readings `before ≤ after`, the
`diff` stored by `access_mem` (lines 164–171) is exactly the elapsed
nanoseconds, is nonnegative, equals the zero-saturated delta, and survives
the conversion into the `unsigned long` array `RESULTS` unchanged. -/
theorem C3_recorded_latency_nonneg (b a : Timespec) (hb : b.valid) (ha : a.valid)
    (hmono : b.le a) (hbound : diffNs b a < (U64 : ℤ)) :
    diffNs b a = a.totalNs - b.totalNs ∧
    0 ≤ diffNs b a ∧
    diffNs b a = max 0 (a.totalNs - b.totalNs) ∧
    (recordedLatency b a : ℤ) = diffNs b a := by
  obtain ⟨hb1, hb2⟩ := hb
  obtain ⟨ha1, ha2⟩ := ha
  have heq : diffNs b a = a.totalNs - b.totalNs := by
    unfold diffNs Timespec.totalNs; ring
  have hpos : 0 ≤ diffNs b a := by
    unfold diffNs
    rcases hmono with h | ⟨h1, h2⟩ <;> omega
  refine ⟨heq, hpos, by omega, ?_⟩
  unfold recordedLatency
  rw [Int.emod_eq_of_lt hpos hbound, Int.toNat_of_nonneg hpos]

/-- C3 witness: readings `0s+5ns` and `1s+3ns`. -/
theorem C3_recorded_latency_nonneg_witness :
    0 ≤ diffNs ⟨0, 5⟩ ⟨1, 3⟩ ∧ (recordedLatency ⟨0, 5⟩ ⟨1, 3⟩ : ℤ) = diffNs ⟨0, 5⟩ ⟨1, 3⟩ := by
  have h := C3_recorded_latency_nonneg ⟨0, 5⟩ ⟨1, 3⟩ (by decide) (by decide)
    (by decide) (by decide)
  exact ⟨h.2.1, h.2.2.2⟩

/-- C4: the claim asserts the rate divisor is nonzero at the point of
division, even for accesses whose measured clock delta is zero.  The code
(line 167) computes `size * 1024 / diff` with no guard: at the reachable
clock outcome `before = after` (a sub-resolution copy) the divisor `diff`
is `0` and the division is a division by zero (undefined behaviour,
modeled as `none`) — for every access size. -/
theorem C4_rate_divides_by_zero :
    (Timespec.mk 0 0).valid ∧ (Timespec.mk 0 0).le (Timespec.mk 0 0) ∧
    diffNs ⟨0, 0⟩ ⟨0, 0⟩ = 0 ∧
    rateOf 4096 (diffNs ⟨0, 0⟩ ⟨0, 0⟩) = none ∧
    ∀ size : ℕ, rateOf size 0 = none := by
  refine ⟨by decide, by decide, by decide, ?_, fun size => ?_⟩ <;>
    simp [rateOf, diffNs]

/-- C7: `compute_stats` handles the degenerate sizes totally: for `n = 0`
every field is zero, and for `n = 1` min, max, mean and every percentile
equal the single value while the stdev is zero; neither branch performs any
division. -/
theorem C7_degenerate_sizes :
    compute_stats [] =
      { min := 0, max := 0, avg := 0, stdevSq := 0, p99 := 0, p95 := 0, p90 := 0 } ∧
    ∀ x : ℕ, compute_stats [x] =
      { min := x, max := x, avg := (x : ℚ), stdevSq := 0,
        p99 := (x : ℚ), p95 := (x : ℚ), p90 := (x : ℚ) } :=
  ⟨rfl, fun _ => rfl⟩

/-- C8: a run that captured zero samples (`RESULTS_I = 0`) skips the
statistics reduction entirely (no report is produced) and still exits with
`EXIT_SUCCESS`. -/
theorem C8_zero_samples_success (results_i : ℕ) (samples results rates : List ℕ)
    (h : results_i = 0) :
    benchmark_outcome true results_i samples results rates = (EXIT_SUCCESS, none) := by
  subst h
  simp [benchmark_outcome, benchmark_reduce]

/-- C8 witness: the empty run. -/
theorem C8_zero_samples_success_witness :
    benchmark_outcome true 0 [] [] [] = (EXIT_SUCCESS, none) :=
  C8_zero_samples_success 0 [] [] [] rfl

/-- The capacity field is untouched by an append attempt. -/
theorem appendSample_size (log : ResultLog) (s l r : ℕ) :
    (appendSample log s l r).1.results_size = log.results_size := by
  unfold appendSample; split <;> rfl

/-- The cursor moves by one on a stored sample and stays put on a drop. -/
theorem appendSample_cursor (log : ResultLog) (s l r : ℕ) :
    (appendSample log s l r).1.results_i =
      if log.results_i < log.results_size then log.results_i + 1 else log.results_i := by
  unfold appendSample; split <;> simp_all

/-- The returned flag is `true` exactly when capacity remained. -/
theorem appendSample_flag (log : ResultLog) (s l r : ℕ) :
    (appendSample log s l r).2 = true ↔ log.results_i < log.results_size := by
  unfold appendSample; split <;> simp_all

/-- An append attempt on a log whose cursor is within capacity never writes
at or beyond the capacity. -/
theorem appendSample_frame (log : ResultLog) (s l r j : ℕ) (hj : log.results_size ≤ j) :
    (appendSample log s l r).1.samples j = log.samples j ∧
    (appendSample log s l r).1.results j = log.results j ∧
    (appendSample log s l r).1.rates j = log.rates j := by
  unfold appendSample
  split
  · next hc =>
      have hne : ¬(j = log.results_i) := by omega
      exact ⟨by simp [hne], by simp [hne], by simp [hne]⟩
  · exact ⟨rfl, rfl, rfl⟩

/-- Behaviour of the write cursor, the capacity field and the drop counter
under a sequence of append attempts: the cursor saturates at the capacity
and every attempt beyond it is dropped. -/
theorem appendAll_cursor (xs : List (ℕ × ℕ × ℕ)) (log : ResultLog)
    (h : log.results_i ≤ log.results_size) :
    (appendAll log xs).1.results_i = min (log.results_i + xs.length) log.results_size ∧
    (appendAll log xs).1.results_size = log.results_size ∧
    (appendAll log xs).2 =
      log.results_i + xs.length - min (log.results_i + xs.length) log.results_size := by
  induction xs generalizing log with
  | nil => refine ⟨?_, rfl, ?_⟩ <;> simp [appendAll] <;> omega
  | cons s rest ih =>
    simp only [appendAll]
    by_cases hc : log.results_i < log.results_size
    · obtain ⟨h1, h2, h3⟩ := ih (appendSample log s.1 s.2.1 s.2.2).1
        (by rw [appendSample_cursor, appendSample_size, if_pos hc]; omega)
      rw [appendSample_cursor, appendSample_size, if_pos hc] at h1 h3
      rw [appendSample_size] at h2
      rw [if_pos ((appendSample_flag log s.1 s.2.1 s.2.2).mpr hc)]
      refine ⟨?_, h2, ?_⟩ <;> simp only [h1, h3, List.length_cons] <;> omega
    · obtain ⟨h1, h2, h3⟩ := ih (appendSample log s.1 s.2.1 s.2.2).1
        (by rw [appendSample_cursor, appendSample_size, if_neg hc]; omega)
      rw [appendSample_cursor, appendSample_size, if_neg hc] at h1 h3
      rw [appendSample_size] at h2
      rw [if_neg (fun hf => hc ((appendSample_flag log s.1 s.2.1 s.2.2).mp hf))]
      refine ⟨?_, h2, ?_⟩ <;> simp only [h1, h3, List.length_cons] <;> omega

/-- No append sequence ever writes at or beyond the capacity: all three
arrays keep their previous contents there. -/
theorem appendAll_frame (xs : List (ℕ × ℕ × ℕ)) (log : ResultLog) (j : ℕ)
    (hj : log.results_size ≤ j) :
    (appendAll log xs).1.samples j = log.samples j ∧
    (appendAll log xs).1.results j = log.results j ∧
    (appendAll log xs).1.rates j = log.rates j := by
  induction xs generalizing log with
  | nil => exact ⟨rfl, rfl, rfl⟩
  | cons s rest ih =>
    simp only [appendAll]
    obtain ⟨f1, f2, f3⟩ := appendSample_frame log s.1 s.2.1 s.2.2 j hj
    obtain ⟨g1, g2, g3⟩ := ih (appendSample log s.1 s.2.1 s.2.2).1
      (by rw [appendSample_size]; exact hj)
    exact ⟨g1.trans f1, g2.trans f2, g3.trans f3⟩

/-- C5: the log `benchmark` allocates has capacity exactly
`duration * 1000 / TICK_INTERVAL_MS`; for every sequence of append attempts
no write touches an index `≥` capacity (those cells keep their `calloc`ed
zero), the count saturates at the capacity, and `capacity + 1` attempts
leave the count at `capacity` with exactly one sample reported dropped. -/
theorem C5_capacity_saturation (duration tick : ℕ) (xs : List (ℕ × ℕ × ℕ)) (j : ℕ)
    (hj : duration * 1000 / tick ≤ j) :
    (initLog duration tick).results_size = duration * 1000 / tick ∧
    (appendAll (initLog duration tick) xs).1.results_i =
      min xs.length (duration * 1000 / tick) ∧
    ((appendAll (initLog duration tick) xs).1.samples j = 0 ∧
     (appendAll (initLog duration tick) xs).1.results j = 0 ∧
     (appendAll (initLog duration tick) xs).1.rates j = 0) ∧
    (xs.length = duration * 1000 / tick + 1 →
      (appendAll (initLog duration tick) xs).1.results_i = duration * 1000 / tick ∧
      (appendAll (initLog duration tick) xs).2 = 1) := by
  obtain ⟨h1, h2, h3⟩ := appendAll_cursor xs (initLog duration tick) (Nat.zero_le _)
  obtain ⟨f1, f2, f3⟩ := appendAll_frame xs (initLog duration tick) j hj
  have hri : (initLog duration tick).results_i = 0 := rfl
  have hsz : (initLog duration tick).results_size = duration * 1000 / tick := rfl
  rw [hri, hsz] at h1 h3
  refine ⟨rfl, by omega, ⟨by rw [f1]; rfl, by rw [f2]; rfl, by rw [f3]; rfl⟩,
    fun hlen => ⟨by omega, by omega⟩⟩

/-- C5 witness: a 1-second run at 10 ms ticks (capacity 100), 101 append
attempts, probe index 100. -/
theorem C5_capacity_saturation_witness :
    1 * 1000 / 10 ≤ 100 ∧
    (appendAll (initLog 1 10) (List.replicate 101 (1, 2, 3))).1.results_i = 1 * 1000 / 10 ∧
    (appendAll (initLog 1 10) (List.replicate 101 (1, 2, 3))).2 = 1 := by
  have h := C5_capacity_saturation 1 10 (List.replicate 101 (1, 2, 3)) 100 (by norm_num)
  exact ⟨by norm_num, (h.2.2.2 (by norm_num)).1, (h.2.2.2 (by norm_num)).2⟩

/-- C6: each tick's draw takes the access size in `[0, MEM_OP_MAX_MB*MB)`
and the offset within the buffer, and the clamp shrinks only the size —
the offset of the timed copy is the drawn offset unchanged — so that
`offset + size ≤ DATA_SIZE`: the copy stays in bounds. -/
theorem C6_access_in_bounds (r1 r2 r3 maxAccessBytes dataSize : ℕ)
    (hmax : 0 < maxAccessBytes) (hds : 2 ≤ dataSize)
    (hfit : dataSize + maxAccessBytes ≤ U64) :
    draw_size r1 maxAccessBytes < maxAccessBytes ∧
    draw_offset r2 r3 dataSize < dataSize ∧
    (access_mem_draw r1 r2 r3 maxAccessBytes dataSize).2 = draw_offset r2 r3 dataSize ∧
    (access_mem_draw r1 r2 r3 maxAccessBytes dataSize).1 ≤ draw_size r1 maxAccessBytes ∧
    draw_offset r2 r3 dataSize + (access_mem_draw r1 r2 r3 maxAccessBytes dataSize).1 ≤
      dataSize := by
  have hsz : draw_size r1 maxAccessBytes < maxAccessBytes := Nat.mod_lt _ hmax
  have hdsU : dataSize < U64 := by omega
  have hmod : (dataSize + U64 - 1) % U64 = dataSize - 1 := by
    simp only [U64] at *; omega
  have hoff : draw_offset r2 r3 dataSize < dataSize := by
    unfold draw_offset
    rw [hmod]
    have := Nat.mod_lt (Nat.lor (r2 * 4096 % U64) r3 % U64) (y := dataSize - 1) (by omega)
    omega
  have hsum : (draw_offset r2 r3 dataSize + draw_size r1 maxAccessBytes) % U64 =
      draw_offset r2 r3 dataSize + draw_size r1 maxAccessBytes :=
    Nat.mod_eq_of_lt (by omega)
  refine ⟨hsz, hoff, rfl, ?_, ?_⟩ <;>
    · simp only [access_mem_draw, clamp_size, hsum]
      split <;> omega

/-- C6 witness: rand values `5, 7, 11`, max access 16 bytes, buffer of 100
bytes. -/
theorem C6_access_in_bounds_witness :
    (0 : ℕ) < 16 ∧ (2 : ℕ) ≤ 100 ∧ 100 + 16 ≤ U64 ∧
    draw_offset 7 11 100 + (access_mem_draw 5 7 11 16 100).1 ≤ 100 :=
  ⟨by norm_num, by norm_num, by norm_num [U64],
   (C6_access_in_bounds 5 7 11 16 100 (by norm_num) (by norm_num)
      (by norm_num [U64])).2.2.2.2⟩

/-- C9: in every interleaving of the tick loop and the worker, (a) a step
that bumps the dropped-tick counter (a failed `pthread_mutex_trylock`)
happens only while the worker is mid-access and changes nothing else — the
worker's phase, the issued-tick count and the completed-access count are
untouched, so the dropped tick is never queued; and (b) in every reachable
state at most one timed access is in flight (accesses never overlap) and
every issued tick is consumed by the access it started
(`accessesDone + inFlight = ticksIssued`), so dropped ticks never turn into
later work. -/
theorem C9_dropped_tick_never_queued :
    (∀ s s', EngineReachable s → EngineStep s s' → s.ticksDropped < s'.ticksDropped →
      s.worker = WorkerPhase.accessing ∧ s'.worker = s.worker ∧
      s'.ticksIssued = s.ticksIssued ∧ s'.accessesDone = s.accessesDone) ∧
    (∀ s, EngineReachable s →
      inFlight s ≤ 1 ∧ s.accessesDone + inFlight s = s.ticksIssued) := by
  constructor
  · intro s s' _ hstep hdrop
    cases hstep with
    | tick h => simp at hdrop
    | tickBusy h => exact ⟨h, rfl, rfl, rfl⟩
    | finishAccess h => simp at hdrop
  · intro s hreach
    induction hreach with
    | refl => simp [initEngine, inFlight]
    | tail hsteps hstep ih =>
      cases hstep with
      | tick h => simp [inFlight, h] at ih ⊢; omega
      | tickBusy h => simp [inFlight, h] at ih ⊢; omega
      | finishAccess h => simp [inFlight, h] at ih ⊢; omega

/-- C9 witness: the post-handshake initial state is reachable and satisfies
the invariant. -/
theorem C9_dropped_tick_never_queued_witness :
    inFlight initEngine ≤ 1 ∧
    initEngine.accessesDone + inFlight initEngine = initEngine.ticksIssued :=
  C9_dropped_tick_never_queued.2 initEngine Relation.ReflTransGen.refl

/-- Unsigned subtraction agrees with truncated subtraction below 2^64. -/
theorem usub_eq (a b : ℕ) (hba : b ≤ a) (ha : a < U64) : usub a b = a - b := by
  unfold usub
  rw [Nat.mod_eq_of_lt (lt_of_le_of_lt hba ha)]
  simp only [U64] at *
  omega

/-- When the length is a genuine `unsigned long` value and the rank product
does not overflow, the unsigned rank arithmetic computes `k * (n - 1)`. -/
theorem rank_nowrap (n k : ℕ) (h1 : 1 ≤ n) (hn : n < U64) (hk : k * (n - 1) < U64) :
    k * ((n + U64 - 1) % U64) % U64 = k * (n - 1) := by
  have hmod : (n + U64 - 1) % U64 = n - 1 := by simp only [U64] at *; omega
  rw [hmod, Nat.mod_eq_of_lt hk]

/-- The percentile rank is at most `n - 1` for `k ≤ 100`. -/
theorem rank_le_pred (n k : ℕ) (hk : k ≤ 100) : k * (n - 1) / 100 ≤ n - 1 := by
  have h1 : k * (n - 1) ≤ 100 * (n - 1) := Nat.mul_le_mul_right _ hk
  omega

/-- A nonzero interpolation remainder forces the rank below `n - 1`, so the
second read `data[r + 1]` also stays in bounds. -/
theorem rank_succ_le_pred (n k : ℕ) (hk : k ≤ 100) (hm : k * (n - 1) % 100 ≠ 0) :
    k * (n - 1) / 100 + 1 ≤ n - 1 := by
  have hn2 : 2 ≤ n := by
    by_contra hcon
    have hz : n - 1 = 0 := by omega
    rw [hz, Nat.mul_zero] at hm
    exact hm rfl
  have hk99 : k ≤ 99 := by
    by_contra hcon
    have hk100 : k = 100 := by omega
    rw [hk100] at hm
    exact hm (Nat.mul_mod_right 100 (n - 1))
  have h1 : k * (n - 1) ≤ 99 * (n - 1) := Nat.mul_le_mul_right _ hk99
  omega

/-- Even when the rank product wraps around 2^64 the rank stays below
`n - 1`: wrapping needs `100 * (n - 1) ≥ 2^64`, which makes `n` far larger
than the wrapped value divided by 100. -/
theorem rank_lt_of_wrap (n k : ℕ) (hk : k ≤ 100) (hw : U64 ≤ k * (n - 1)) :
    k * (n - 1) % U64 / 100 + 1 ≤ n - 1 := by
  have h1 : k * (n - 1) ≤ 100 * (n - 1) := Nat.mul_le_mul_right _ hk
  simp only [U64] at *
  omega

/-- Every index `percentile` reads is below `n`, for any `1 ≤ n < 2^64` and
`k ≤ 100` — including the overflow regime. -/
theorem percentileReads_lt (n k : ℕ) (h1 : 1 ≤ n) (hn : n < U64) (hk : k ≤ 100) :
    ∀ i ∈ percentileReads n k, i < n := by
  intro i hi
  simp only [percentileReads] at hi
  have hmod : (n + U64 - 1) % U64 = n - 1 := by simp only [U64] at *; omega
  rw [hmod] at hi
  rcases Nat.lt_or_ge (k * (n - 1)) U64 with hsmall | hbig
  · rw [Nat.mod_eq_of_lt hsmall] at hi
    by_cases hm : k * (n - 1) % 100 = 0
    · rw [if_pos hm] at hi
      simp only [List.mem_singleton] at hi
      have := rank_le_pred n k hk
      omega
    · rw [if_neg hm] at hi
      simp only [List.mem_cons, List.mem_singleton] at hi
      have := rank_succ_le_pred n k hk hm
      rcases hi with hi | hi | hi <;> first | omega | cases hi
  · have hb := rank_lt_of_wrap n k hk hbig
    by_cases hm : k * (n - 1) % U64 % 100 = 0
    · rw [if_pos hm] at hi
      simp only [List.mem_singleton] at hi
      omega
    · rw [if_neg hm] at hi
      simp only [List.mem_cons, List.mem_singleton] at hi
      rcases hi with hi | hi | hi <;> first | omega | cases hi

/-- `percentile` depends only on the entries at indices below `n`: it never
reads the array out of bounds. -/
theorem percentile_depends_below (data dataB : List ℕ) (n k : ℕ)
    (h1 : 1 ≤ n) (hn : n < U64) (hk : k ≤ 100)
    (hag : ∀ i, i < n → data.getD i 0 = dataB.getD i 0) :
    percentile data n k = percentile dataB n k := by
  have hmem := percentileReads_lt n k h1 hn hk
  simp only [percentile]
  by_cases hm : k * ((n + U64 - 1) % U64) % U64 % 100 = 0
  · rw [if_pos hm, if_pos hm]
    have hr : k * ((n + U64 - 1) % U64) % U64 / 100 < n := by
      apply hmem
      simp only [percentileReads]
      rw [if_pos hm]
      exact List.mem_singleton_self _
    rw [hag _ hr]
  · rw [if_neg hm, if_neg hm]
    have hr : k * ((n + U64 - 1) % U64) % U64 / 100 < n := by
      apply hmem
      simp only [percentileReads]
      rw [if_neg hm]
      exact List.mem_cons_self _ _
    have hr1 : k * ((n + U64 - 1) % U64) % U64 / 100 + 1 < n := by
      apply hmem
      simp only [percentileReads]
      rw [if_neg hm]
      exact List.mem_cons_of_mem _ (List.mem_singleton_self _)
    rw [hag _ hr, hag _ hr1]

/-- C10: `percentile` never indexes out of bounds — for every `1 ≤ n < 2^64`
and `k ∈ [0, 100]` each index it reads is `< n` (`data[r+1]` is read only
when the remainder is nonzero, which forces `r + 1 ≤ n - 1`), so its value
depends only on the first `n` entries; and `compute_stats` returns before
invoking `percentile` when the size is `0`, so the wrap-around of `n - 1`
is unreachable from it. -/
theorem C10_percentile_in_bounds :
    (∀ n k, 1 ≤ n → n < U64 → k ≤ 100 → ∀ i ∈ percentileReads n k, i < n) ∧
    (∀ (data dataB : List ℕ) (n k : ℕ), 1 ≤ n → n < U64 → k ≤ 100 →
      (∀ i, i < n → data.getD i 0 = dataB.getD i 0) →
      percentile data n k = percentile dataB n k) ∧
    (∀ data : List ℕ, data.length = 0 →
      compute_stats data =
        { min := 0, max := 0, avg := 0, stdevSq := 0, p99 := 0, p95 := 0, p90 := 0 }) := by
  refine ⟨percentileReads_lt, percentile_depends_below, ?_⟩
  intro data hd
  rw [List.length_eq_zero.mp hd]
  rfl

/-- C10 witness: the `p90` rank of a five-element array reads indices 3 and
4, both below 5. -/
theorem C10_percentile_in_bounds_witness : (3 : ℕ) < 5 ∧ (4 : ℕ) < 5 :=
  ⟨C10_percentile_in_bounds.1 5 90 (by norm_num) (by norm_num [U64]) (by norm_num) 3
      (by norm_num [percentileReads, U64]),
   C10_percentile_in_bounds.1 5 90 (by norm_num) (by norm_num [U64]) (by norm_num) 4
      (by norm_num [percentileReads, U64])⟩

/-- C2: on ascending-sorted data of length `n ≥ 2` whose rank product does
not overflow, the source `percentile` computes exactly the R-7
linear-interpolation method (stated by `percentileR7`, written from the
spec with true subtraction); in particular `percentile(data, n, 0) =
data[0]`, `percentile(data, n, 100) = data[n-1]`, and
`percentile([10,20,30,40,50], 5, 90) = 46`. -/
theorem C2_percentile_r7 (data : List ℕ) (k : ℕ)
    (hsort : List.Sorted (· ≤ ·) data) (hlen : 2 ≤ data.length)
    (helem : ∀ x ∈ data, x < U64) (hfit : 100 * (data.length - 1) < U64)
    (hk : k ≤ 100) :
    percentile data data.length k = percentileR7 data data.length k ∧
    percentile data data.length 0 = (data.getD 0 0 : ℚ) ∧
    percentile data data.length 100 = (data.getD (data.length - 1) 0 : ℚ) ∧
    percentile [10, 20, 30, 40, 50] 5 90 = 46 := by
  have h1 : 1 ≤ data.length := by omega
  have hn : data.length < U64 := by simp only [U64] at *; omega
  refine ⟨?_, ?_, ?_, by norm_num [percentile, usub, U64, List.getD]⟩
  · have hknw : k * (data.length - 1) < U64 := by
      have := Nat.mul_le_mul_right (data.length - 1) hk
      omega
    have ht := rank_nowrap data.length k h1 hn hknw
    simp only [percentile, percentileR7, ht]
    by_cases hm : k * (data.length - 1) % 100 = 0
    · rw [if_pos hm, if_pos hm]
    · rw [if_neg hm, if_neg hm]
      have hrb := rank_succ_le_pred data.length k hk hm
      have hr1 : k * (data.length - 1) / 100 + 1 < data.length := by omega
      have hrn : k * (data.length - 1) / 100 < data.length := by omega
      have hle : data.getD (k * (data.length - 1) / 100) 0 ≤
          data.getD (k * (data.length - 1) / 100 + 1) 0 := by
        rw [List.getD_eq_getElem data 0 hrn, List.getD_eq_getElem data 0 hr1]
        have := List.Sorted.rel_get_of_lt hsort
          (a := ⟨k * (data.length - 1) / 100, hrn⟩)
          (b := ⟨k * (data.length - 1) / 100 + 1, hr1⟩)
          (by simp [Fin.lt_def])
        simpa [List.get_eq_getElem] using this
      have hbU : data.getD (k * (data.length - 1) / 100 + 1) 0 < U64 := by
        rw [List.getD_eq_getElem data 0 hr1]
        exact helem _ (List.getElem_mem _)
      rw [usub_eq _ _ hle hbU, Nat.cast_sub hle]
  · simp [percentile]
  · have ht := rank_nowrap data.length 100 h1 hn hfit
    have hm0 : 100 * (data.length - 1) % 100 = 0 := Nat.mul_mod_right 100 _
    have hr : 100 * (data.length - 1) / 100 = data.length - 1 := by omega
    simp only [percentile, ht, hm0, hr, if_pos]

/-- C2 witness: `data = [3, 7]`, `k = 50`. -/
theorem C2_percentile_r7_witness :
    percentile [3, 7] 2 50 = percentileR7 [3, 7] 2 50 ∧ percentile [3, 7] 2 50 = 5 := by
  have h := C2_percentile_r7 [3, 7] 50 (by decide) (by norm_num)
    (by intro x hx; fin_cases hx <;> norm_num [U64]) (by norm_num [U64]) (by norm_num)
  refine ⟨by simpa using h.1, ?_⟩
  norm_num [percentile, usub, U64, List.getD]

end Bench
